import Mathlib

/-!
# bamboo-core character utilities (`utils.go`)

A shallow embedding of the tone / mark engine of `bamboo-core/utils.go`.

* A Go `rune` (an `int32`) is an `Int`; no arithmetic of the file can overflow.
* A Go `string` is the list of code points that `[]rune(s)` yields; converting
  a rune slice back with `string(chars)` is `stringOfRunes`.
* Indexing a slice out of range panics in Go; it is `none` here, and every
  function that indexes without a guard returns an `Option`.
-/

namespace Bamboo

/-- A Go `rune`. -/
abbrev Rune := Int

/-- Modelled from the spec: the type `Tone` is declared outside `utils.go`;
the code converts it from `int` and to `uint8`, the spec gives the six values
`None, Grave, Acute, HookAbove, Tilde, DotBelow` in this order. -/
abbrev Tone := Nat

/-- Modelled from the spec: the type `Mark` is declared outside `utils.go`;
the spec gives the five values `Plain, Circumflex, Breve, Horn, Stroke` in this
order. -/
abbrev Mark := Nat

/-- Modelled from the spec: the constant `TONE_NONE` is declared outside
`utils.go`; it is the first value of the enumeration `Tone`. -/
def TONE_NONE : Tone := 0

/-- The table `Vowels`: the code points of
`"aàáảãạăằắẳẵặâầấẩẫậeèéẻẽẹêềếểễệiìíỉĩịoòóỏõọôồốổỗộơờớởỡợuùúủũụưừứửữựyỳýỷỹỵ"`. -/
def Vowels : List Rune :=
  [ 97, 224, 225, 7843, 227, 7841,        -- a à á ả ã ạ
    259, 7857, 7855, 7859, 7861, 7863,    -- ă ằ ắ ẳ ẵ ặ
    226, 7847, 7845, 7849, 7851, 7853,    -- â ầ ấ ẩ ẫ ậ
    101, 232, 233, 7867, 7869, 7865,      -- e è é ẻ ẽ ẹ
    234, 7873, 7871, 7875, 7877, 7879,    -- ê ề ế ể ễ ệ
    105, 236, 237, 7881, 297, 7883,       -- i ì í ỉ ĩ ị
    111, 242, 243, 7887, 245, 7885,       -- o ò ó ỏ õ ọ
    244, 7891, 7889, 7893, 7895, 7897,    -- ô ồ ố ổ ỗ ộ
    417, 7901, 7899, 7903, 7905, 7907,    -- ơ ờ ớ ở ỡ ợ
    117, 249, 250, 7911, 361, 7909,       -- u ù ú ủ ũ ụ
    432, 7915, 7913, 7917, 7919, 7921,    -- ư ừ ứ ử ữ ự
    121, 7923, 253, 7927, 7929, 7925 ]    -- y ỳ ý ỷ ỹ ỵ

/-- The element at position `n` of a slice, when `n` is in range. -/
def nth : List Rune → Nat → Option Rune
  | [], _ => none
  | x :: _, 0 => some x
  | _ :: xs, n + 1 => nth xs n

/-- Indexing `xs[i]` with a Go `int`: a value in range, a panic (`none`)
out of range. -/
def index (xs : List Rune) (i : Int) : Option Rune :=
  if i < 0 then none else nth xs i.toNat

/-- The loop of `IsVowel`: it scans the whole table and raises a flag. -/
def IsVowel (chr : Rune) : Bool :=
  Vowels.foldl (fun isVowel v => if v = chr then true else isVowel) false

/-- The loop of `HasVowel`. -/
def HasVowel : List Rune → Bool
  | [] => false
  | s :: seq => if IsVowel s then true else HasVowel seq

/-- The loop `for pos, v := range xs` returning the first `pos` with
`v == chr`, and `-1` after the loop; `pos` is the index of the head. -/
def findPosFrom (chr : Rune) : List Rune → Int → Int
  | [], _ => -1
  | v :: vs, pos => if v = chr then pos else findPosFrom chr vs (pos + 1)

/-- `FindVowelPosition`. -/
def FindVowelPosition (chr : Rune) : Int :=
  findPosFrom chr Vowels 0

/-- The underscore, the absent slot of a mark record. -/
def underscore : Rune := 95

/-- The literal of `marksMaps`, each string as its code points. -/
def marksMapsEntries : List (Rune × List Rune) :=
  [ (97,  [97, 226, 259, 95, 95]),    -- 'a': "aâă__"
    (226, [97, 226, 259, 95, 95]),    -- 'â': "aâă__"
    (259, [97, 226, 259, 95, 95]),    -- 'ă': "aâă__"
    (101, [101, 234, 95, 95, 95]),    -- 'e': "eê___"
    (234, [101, 234, 95, 95, 95]),    -- 'ê': "eê___"
    (111, [111, 244, 95, 417, 95]),   -- 'o': "oô_ơ_"
    (244, [111, 244, 95, 417, 95]),   -- 'ô': "oô_ơ_"
    (417, [111, 244, 95, 417, 95]),   -- 'ơ': "oô_ơ_"
    (117, [117, 95, 95, 432, 95]),    -- 'u': "u__ư_"
    (432, [117, 95, 95, 432, 95]),    -- 'ư': "u__ư_"
    (100, [100, 95, 95, 95, 273]),    -- 'd': "d___đ"
    (273, [100, 95, 95, 95, 273]) ]   -- 'đ': "d___đ"

/-- Lookup in a map literal: the value of the entry with this key. -/
def mapLookup (chr : Rune) : List (Rune × List Rune) → Option (List Rune)
  | [] => none
  | (k, s) :: rest => if k = chr then some s else mapLookup chr rest

/-- The lookup `marksMaps[chr]` with its `found` flag, the string converted
by `[]rune(str)`. -/
def marksMaps (chr : Rune) : Option (List Rune) :=
  mapLookup chr marksMapsEntries

/-- `getMarkFamily`. -/
def getMarkFamily (chr : Rune) : List Rune :=
  match marksMaps chr with
  | some s => s.filter (fun c => c ≠ underscore)
  | none => []

/-- `FindMarkPosition`. -/
def FindMarkPosition (chr : Rune) : Int :=
  match marksMaps chr with
  | some str => findPosFrom chr str 0
  | none => -1

/-- `FindMarkFromChar`; `Mark(pos)` converts a non-negative `int`. -/
def FindMarkFromChar (chr : Rune) : Mark × Bool :=
  let pos := FindMarkPosition chr
  if pos ≥ 0 then (pos.toNat % 256, true) else (0, false)

/-- `RemoveMarkFromChar`; the index `marks[0]` stands under `len(marks) > 0`. -/
def RemoveMarkFromChar (chr : Rune) : Rune :=
  match marksMaps chr with
  | some marks =>
    match marks with
    | m0 :: _ => m0
    | [] => chr
  | none => chr

/-- `FindToneFromChar`; `Tone(pos % 6)` converts an `int`. -/
def FindToneFromChar (chr : Rune) : Tone :=
  let pos := FindVowelPosition chr
  if pos = -1 then TONE_NONE else (Int.tmod pos 6).toNat % 256

/-- `AddToneToChar`; `none` is the panic of `Vowels[pos+offset]`. -/
def AddToneToChar (chr : Rune) (tone : Nat) : Option Rune :=
  let pos := FindVowelPosition chr
  if pos > -1 then
    let current_tone := Int.tmod pos 6
    let offset := (tone : Int) - current_tone
    index Vowels (pos + offset)
  else
    some chr

/-- `AddMarkToChar`; `none` is a panic, of `marks[mark]` or of a call of
`AddToneToChar`. -/
def AddMarkToChar (chr : Rune) (mark : Nat) : Option Rune :=
  let tone := FindToneFromChar chr
  match AddToneToChar chr 0 with
  | none => none
  | some chr =>
    let marked : Option Rune :=
      match marksMaps chr with
      | some marks =>
        match index marks mark with
        | none => none
        | some x => if x ≠ underscore then some x else some 0
      | none => some 0
    match marked with
    | none => none
    | some result => AddToneToChar result tone

/-- `IsAlpha`. -/
def IsAlpha (c : Rune) : Bool :=
  (decide (c ≥ 97) && decide (c ≤ 122)) || (decide (c ≥ 65) && decide (c ≤ 90))

/-- A rune that `string(chars)` encodes as itself: a Unicode scalar value. -/
def validRune (r : Rune) : Bool :=
  (decide (0 ≤ r) && decide (r < 55296)) || (decide (57344 ≤ r) && decide (r ≤ 1114111))

/-- The conversion `string(chars)`: a rune that is no scalar value becomes
U+FFFD. -/
def stringOfRunes (chars : List Rune) : List Rune :=
  chars.map (fun r => if validRune r then r else 65533)

/-- The loop of `RemoveToneFromWord` over `chars`: position `i` is rewritten
when `chars[i]` is a vowel, and no other position is. -/
def removeToneLoop : List Rune → Option (List Rune)
  | [] => some []
  | c :: cs =>
    match (if IsVowel c then AddToneToChar c 0 else some c) with
    | none => none
    | some c1 =>
      match removeToneLoop cs with
      | none => none
      | some cs1 => some (c1 :: cs1)

/-- `RemoveToneFromWord`; the word is `[]rune(word)`. -/
def RemoveToneFromWord (word : List Rune) : Option (List Rune) :=
  match removeToneLoop word with
  | none => none
  | some chars => some (stringOfRunes chars)

/-- The keys of `vnIdenticalCharset`: â ă ê ô ơ ư đ. -/
def vnIdenticalCharset : List Rune := [226, 259, 234, 244, 417, 432, 273]

/-- `HasVietnameseChar`; `unicode.ToLower` of the Go library is the
parameter `toLower`. -/
def HasVietnameseChar (toLower : Rune → Rune) : List Rune → Option Bool
  | [] => some false
  | chr :: rest =>
    let c := toLower chr
    if FindToneFromChar c ≠ TONE_NONE then some true
    else
      match AddToneToChar c 0 with
      | none => none
      | some b => if b ∈ vnIdenticalCharset then some true else HasVietnameseChar toLower rest

/-- The table `WordBreakSymbols`. -/
def WordBreakSymbols : List Rune :=
  [ 44, 59, 58, 46, 34, 39, 33, 63, 32,
    60, 62, 61, 43, 45, 42, 47, 92,
    95, 126, 96, 64, 35, 36, 37, 94, 38, 40, 41, 123, 125, 91, 93,
    124 ]

/-- `IsWordBreakSymbol`. -/
def IsWordBreakSymbol (key : Rune) : Bool :=
  if key ≥ 48 ∧ key ≤ 57 then true
  else WordBreakSymbols.any (fun c => c = key)

/-! ## The tables against the source literals -/

theorem Vowels_literal :
    Vowels = ("aàáảãạăằắẳẵặâầấẩẫậeèéẻẽẹêềếểễệiìíỉĩịoòóỏõọôồốổỗộơờớởỡợuùúủũụưừứửữựyỳýỷỹỵ".toList.map
      fun c => (c.toNat : Int)) := by
  decide

/-! ## Lookups outside the tables -/

/-- The keys of `marksMaps`. -/
def markKeys : List Rune := marksMapsEntries.map Prod.fst

/-- Slot `mark` of the family record of `chr`, when the record exists and the
slot holds a letter (not the underscore). -/
def markSlot (chr : Rune) (mark : Nat) : Option Rune :=
  match marksMaps chr with
  | some marks =>
    match nth marks mark with
    | some x => if x ≠ underscore then some x else none
    | none => none
  | none => none

theorem nth_eq (xs : List Rune) (n : Nat) : nth xs n = xs[n]? := by
  induction xs generalizing n with
  | nil => simp [nth]
  | cons x xs ih =>
    cases n with
    | zero => simp [nth]
    | succ k => simp [nth, ih]

theorem findPosFrom_of_not_mem (chr : Rune) (xs : List Rune) (pos : Int)
    (h : chr ∉ xs) : findPosFrom chr xs pos = -1 := by
  induction xs generalizing pos with
  | nil => rfl
  | cons v vs ih =>
    have hv : ¬ v = chr := fun e => h (by simp [e])
    have hvs : chr ∉ vs := fun e => h (by simp [e])
    simp [findPosFrom, hv, ih _ hvs]

theorem FindVowelPosition_of_not_mem (c : Rune) (h : c ∉ Vowels) :
    FindVowelPosition c = -1 :=
  findPosFrom_of_not_mem c Vowels 0 h

theorem FindToneFromChar_of_not_mem (c : Rune) (h : c ∉ Vowels) :
    FindToneFromChar c = 0 := by
  simp [FindToneFromChar, FindVowelPosition_of_not_mem c h, TONE_NONE]

theorem AddToneToChar_of_not_mem (c : Rune) (t : Nat) (h : c ∉ Vowels) :
    AddToneToChar c t = some c := by
  simp [AddToneToChar, FindVowelPosition_of_not_mem c h]

theorem foldl_flag (chr : Rune) (xs : List Rune) (b : Bool) :
    xs.foldl (fun isVowel v => if v = chr then true else isVowel) b
      = (b || decide (chr ∈ xs)) := by
  induction xs generalizing b with
  | nil => simp
  | cons v vs ih =>
    rw [List.foldl_cons, ih]
    by_cases hv : v = chr
    · simp [hv]
    · have hv2 : ¬ chr = v := fun e => hv e.symm
      simp [hv, hv2]

theorem IsVowel_iff (c : Rune) : IsVowel c = true ↔ c ∈ Vowels := by
  unfold IsVowel
  rw [foldl_flag]
  simp

theorem mapLookup_of_not_mem (chr : Rune) (l : List (Rune × List Rune))
    (h : chr ∉ l.map Prod.fst) : mapLookup chr l = none := by
  induction l with
  | nil => rfl
  | cons e rest ih =>
    obtain ⟨k, s⟩ := e
    have hk : ¬ k = chr := fun e => h (by simp [e])
    have hr : chr ∉ rest.map Prod.fst := fun e => h (by simp at e ⊢; exact Or.inr e)
    simp [mapLookup, hk, ih hr]

theorem marksMaps_of_not_mem (c : Rune) (h : c ∉ markKeys) : marksMaps c = none :=
  mapLookup_of_not_mem c marksMapsEntries h

theorem markSlot_of_not_mem (c : Rune) (m : Nat) (h : c ∉ markKeys) :
    markSlot c m = none := by
  simp [markSlot, marksMaps_of_not_mem c h]

theorem markSlot_eq_some (b : Rune) (m : Nat) (marks : List Rune) (x : Rune)
    (hb : marksMaps b = some marks) (hx : marks[m]? = some x)
    (hne : x ≠ underscore) : markSlot b m = some x := by
  simp only [markSlot, hb, nth_eq, hx]
  simp [hne]

theorem record_length : ∀ b ∈ markKeys, (marksMaps b).map List.length = some 5 := by
  decide

theorem marksMaps_some_mem (b : Rune) (marks : List Rune)
    (hb : marksMaps b = some marks) : b ∈ markKeys ∧ marks.length = 5 := by
  have hmem : b ∈ markKeys := by
    by_contra h
    rw [marksMaps_of_not_mem b h] at hb
    exact Option.noConfusion hb
  refine ⟨hmem, ?_⟩
  have h := record_length b hmem
  rw [hb] at h
  simpa using h

theorem slot_lt (b : Rune) (m : Nat) (marks : List Rune) (x : Rune)
    (hb : marksMaps b = some marks) (hx : marks[m]? = some x) : m < 5 := by
  have hlen := (marksMaps_some_mem b marks hb).2
  obtain ⟨hlt, _⟩ := List.getElem?_eq_some.mp hx
  omega

/-- Every rune that occurs in one of the two tables. -/
def tableRunes : List Rune := Vowels ++ markKeys

theorem not_mem_tableRunes (c : Rune) (h : c ∉ tableRunes) :
    c ∉ Vowels ∧ c ∉ markKeys := by
  simp [tableRunes] at h
  exact ⟨h.1, h.2⟩

/-! ## Tone round trips -/

theorem tone_restoration_table : ∀ v ∈ Vowels, ∀ t, t < 6 →
    (AddToneToChar v t).bind (fun r => AddToneToChar r (FindToneFromChar v)) = some v := by
  decide

/-- C1. Tone round trip: for every code point `v` of the table `Vowels`,
`AddToneToChar(v, FindToneFromChar(v))` returns `v`. -/
theorem tone_round_trip (v : Rune) (hv : v ∈ Vowels) :
    AddToneToChar v (FindToneFromChar v) = some v := by
  revert v
  decide

theorem tone_round_trip_witness :
    (7879 : Rune) ∈ Vowels ∧ AddToneToChar 7879 (FindToneFromChar 7879) = some 7879 :=
  ⟨by decide, tone_round_trip 7879 (by decide)⟩

/-- C2. Tone restoration: for every code point `v` of the table `Vowels` and
every tone `t` of `0..5`, `AddToneToChar(v, t)` returns some `r`, and
`AddToneToChar(r, FindToneFromChar(v))` returns `v`. -/
theorem tone_restoration (v : Rune) (hv : v ∈ Vowels) (t : Nat) (ht : t < 6) :
    ∃ r, AddToneToChar v t = some r ∧ AddToneToChar r (FindToneFromChar v) = some v := by
  have h := tone_restoration_table v hv t ht
  cases hr : AddToneToChar v t with
  | none => simp [hr] at h
  | some r =>
    rw [hr] at h
    exact ⟨r, rfl, by simpa using h⟩

theorem tone_restoration_witness :
    (7845 : Rune) ∈ Vowels ∧ 5 < 6 ∧
      ∃ r, AddToneToChar 7845 5 = some r ∧ AddToneToChar r (FindToneFromChar 7845) = some 7845 :=
  ⟨by decide, by decide, tone_restoration 7845 (by decide) 5 (by decide)⟩

/-! ## Marks -/

theorem mark_round_trip_table : ∀ b ∈ markKeys, ∀ m, m < 5 →
    markSlot b m = none ∨ (AddMarkToChar b m).map FindMarkPosition = some (m : Int) := by
  decide

/-- C3. Mark round trip: for every key `b` of `marksMaps` and every mark `m`
whose slot `x` in the record of `b` is a letter (not `'_'`),
`AddMarkToChar(b, m)` returns some `r` with `FindMarkPosition(r) == m`. -/
theorem mark_round_trip (b : Rune) (m : Nat) (marks : List Rune) (x : Rune)
    (hb : marksMaps b = some marks) (hx : marks[m]? = some x)
    (hne : x ≠ underscore) :
    ∃ r, AddMarkToChar b m = some r ∧ FindMarkPosition r = (m : Int) := by
  have hmem := (marksMaps_some_mem b marks hb).1
  have hm := slot_lt b m marks x hb hx
  have hs := markSlot_eq_some b m marks x hb hx hne
  rcases mark_round_trip_table b hmem m hm with h | h
  · rw [hs] at h
    exact Option.noConfusion h
  · cases hr : AddMarkToChar b m with
    | none => simp [hr] at h
    | some r =>
      rw [hr] at h
      exact ⟨r, rfl, by simpa using h⟩

theorem mark_round_trip_witness :
    marksMaps 111 = some [111, 244, 95, 417, 95] ∧
    ([111, 244, 95, 417, 95] : List Rune)[3]? = some 417 ∧ (417 : Rune) ≠ underscore ∧
    ∃ r, AddMarkToChar 111 3 = some r ∧ FindMarkPosition r = ((3 : Nat) : Int) :=
  ⟨by decide, by decide, by decide,
    mark_round_trip 111 3 [111, 244, 95, 417, 95] 417 (by decide) (by decide) (by decide)⟩

set_option maxRecDepth 100000 in
theorem apply_mark_table : ∀ c ∈ tableRunes, ∀ m, m < 5 →
    (AddToneToChar c 0).bind (fun b => markSlot b m) = none ∨
      ((AddMarkToChar c m).map FindToneFromChar = some (FindToneFromChar c) ∧
       (AddMarkToChar c m).bind (fun r => AddToneToChar r 0)
          = (AddToneToChar c 0).bind (fun b => markSlot b m)) := by
  decide

/-- C4. `AddMarkToChar` changes the shape mark and keeps the tone: when the
tone-neutral form `base = AddToneToChar(c, 0)` is a key of `marksMaps` and slot
`m` of its record holds a letter `x`, the result `r = AddMarkToChar(c, m)` has
`FindToneFromChar(r) == FindToneFromChar(c)` and `AddToneToChar(r, 0) == x`;
and `AddMarkToChar('á', Circumflex) == 'ấ'`. -/
theorem apply_mark_keeps_tone (c base : Rune) (m : Nat) (marks : List Rune) (x : Rune)
    (hbase : AddToneToChar c 0 = some base)
    (hb : marksMaps base = some marks) (hx : marks[m]? = some x)
    (hne : x ≠ underscore) :
    (∃ r, AddMarkToChar c m = some r ∧ FindToneFromChar r = FindToneFromChar c ∧
      AddToneToChar r 0 = some x) ∧ AddMarkToChar 225 1 = some 7845 := by
  refine ⟨?_, by decide⟩
  have hm := slot_lt base m marks x hb hx
  have hs := markSlot_eq_some base m marks x hb hx hne
  have hc : c ∈ tableRunes := by
    by_contra h
    obtain ⟨hv, hk⟩ := not_mem_tableRunes c h
    rw [AddToneToChar_of_not_mem c 0 hv] at hbase
    have hcb : c = base := by simpa using hbase
    rw [← hcb, marksMaps_of_not_mem c hk] at hb
    exact Option.noConfusion hb
  rcases apply_mark_table c hc m hm with h | ⟨h1, h2⟩
  · rw [hbase] at h
    simp [hs] at h
  · rw [hbase] at h2
    simp only [Option.some_bind, hs] at h2
    cases hr : AddMarkToChar c m with
    | none => simp [hr] at h1
    | some r =>
      rw [hr] at h1 h2
      exact ⟨r, rfl, by simpa using h1, by simpa using h2⟩

theorem apply_mark_keeps_tone_witness :
    AddToneToChar 7907 0 = some 417 ∧ marksMaps 417 = some [111, 244, 95, 417, 95] ∧
    ([111, 244, 95, 417, 95] : List Rune)[1]? = some 244 ∧ (244 : Rune) ≠ underscore ∧
    ((∃ r, AddMarkToChar 7907 1 = some r ∧ FindToneFromChar r = FindToneFromChar 7907 ∧
      AddToneToChar r 0 = some 244) ∧ AddMarkToChar 225 1 = some 7845) :=
  ⟨by decide, by decide, by decide, by decide,
    apply_mark_keeps_tone 7907 417 1 [111, 244, 95, 417, 95] 244
      (by decide) (by decide) (by decide) (by decide)⟩

theorem AddMarkToChar_of_not_mem (c : Rune) (m : Nat) (hv : c ∉ Vowels)
    (hk : c ∉ markKeys) : AddMarkToChar c m = some 0 := by
  have h0 : AddToneToChar 0 0 = some 0 := by decide
  simp only [AddMarkToChar, AddToneToChar_of_not_mem c 0 hv, marksMaps_of_not_mem c hk,
    FindToneFromChar_of_not_mem c hv, h0]

theorem markSlot_eq_none_iff (base : Rune) (m : Nat) (hm : m < 5) :
    markSlot base m = none ↔
      (marksMaps base = none ∨
        ∃ marks, marksMaps base = some marks ∧ marks[m]? = some underscore) := by
  cases hb : marksMaps base with
  | none => simp [markSlot, hb]
  | some marks =>
    have hlen := (marksMaps_some_mem base marks hb).2
    cases hy : marks[m]? with
    | none =>
      have h := List.getElem?_eq_none_iff.mp hy
      omega
    | some y =>
      simp only [markSlot, hb, nth_eq, hy]
      by_cases hu : y = underscore
      · simp [hu, hy]
      · simp [hu, hy]

set_option maxRecDepth 100000 in
theorem sentinel_table : ∀ c ∈ tableRunes, ∀ m, m < 5 →
    (AddToneToChar c 0).isSome = true ∧ (AddMarkToChar c m).isSome = true ∧
      (AddMarkToChar c m = some 0 ↔
        (AddToneToChar c 0).bind (fun b => markSlot b m) = none) := by
  decide

/-- C5. The silent-failure sentinel of `AddMarkToChar`: for every code point
`c` and every mark `m` of `0..4` the call returns (no panic), and the result is
the zero rune exactly when the tone-neutral form `base` of `c` has no record in
`marksMaps` or slot `m` of that record is `'_'`; otherwise it is non-zero. -/
theorem apply_mark_sentinel (c : Rune) (m : Nat) (hm : m < 5) :
    ∃ base r, AddToneToChar c 0 = some base ∧ AddMarkToChar c m = some r ∧
      (r = 0 ↔ (marksMaps base = none ∨
        ∃ marks, marksMaps base = some marks ∧ marks[m]? = some underscore)) := by
  by_cases hc : c ∈ tableRunes
  · obtain ⟨h1, h2, h3⟩ := sentinel_table c hc m hm
    obtain ⟨base, hbase⟩ := Option.isSome_iff_exists.mp h1
    obtain ⟨r, hr⟩ := Option.isSome_iff_exists.mp h2
    refine ⟨base, r, hbase, hr, ?_⟩
    rw [hbase, hr] at h3
    simp only [Option.some_bind] at h3
    rw [← markSlot_eq_none_iff base m hm, ← h3]
    simp
  · obtain ⟨hv, hk⟩ := not_mem_tableRunes c hc
    refine ⟨c, 0, AddToneToChar_of_not_mem c 0 hv, AddMarkToChar_of_not_mem c m hv hk, ?_⟩
    simp [marksMaps_of_not_mem c hk]

theorem apply_mark_sentinel_witness :
    3 < 5 ∧ ∃ base r, AddToneToChar 7871 0 = some base ∧ AddMarkToChar 7871 3 = some r ∧
      (r = 0 ↔ (marksMaps base = none ∨
        ∃ marks, marksMaps base = some marks ∧ marks[3]? = some underscore)) :=
  ⟨by decide, apply_mark_sentinel 7871 3 (by decide)⟩

/-! ## The table layout -/

set_option maxRecDepth 100000 in
theorem with_tone_table : ∀ p : Nat, p < 72 → ∀ t : Nat, t < 6 →
    FindVowelPosition ((nth Vowels p).getD 0) = (p : Int) ∧
    AddToneToChar ((nth Vowels p).getD 0) t = nth Vowels (p / 6 * 6 + t) ∧
    (nth Vowels (p / 6 * 6 + t)).isSome = true ∧
    (nth Vowels (p / 6 * 6 + t)).map (fun r => Int.tdiv (FindVowelPosition r) 6)
      = some (Int.tdiv (p : Int) 6) ∧
    (nth Vowels (p / 6 * 6 + t)).map FindToneFromChar = some t := by
  decide

/-- C6. Table definition of `AddToneToChar`: for the code point `v` at
position `p` of `Vowels` (which is the position `FindVowelPosition` finds) and
every tone `t` of `0..5`, `AddToneToChar(v, t)` returns the table entry `r` at
index `(p / 6) * 6 + t`; `FindVowelPosition(r) / 6 == p / 6` and
`FindToneFromChar(r) == t`. -/
theorem with_tone_is_table_entry (p : Nat) (v : Rune) (hp : Vowels[p]? = some v)
    (t : Nat) (ht : t < 6) :
    FindVowelPosition v = (p : Int) ∧
    ∃ r, AddToneToChar v t = some r ∧ Vowels[p / 6 * 6 + t]? = some r ∧
      Int.tdiv (FindVowelPosition r) 6 = Int.tdiv (p : Int) 6 ∧
      FindToneFromChar r = t := by
  have hlt : p < 72 := by
    obtain ⟨h, _⟩ := List.getElem?_eq_some.mp hp
    simpa [Vowels] using h
  obtain ⟨h1, h2, h3, h4, h5⟩ := with_tone_table p hlt t ht
  simp only [nth_eq] at h1 h2 h3 h4 h5
  rw [hp] at h1 h2
  simp only [Option.getD_some] at h1 h2
  obtain ⟨r, hr⟩ := Option.isSome_iff_exists.mp h3
  rw [hr] at h2 h4 h5
  exact ⟨h1, r, h2, hr, by simpa using h4, by simpa using h5⟩

theorem with_tone_is_table_entry_witness :
    Vowels[47]? = some 7897 ∧ 2 < 6 ∧ FindVowelPosition 7897 = ((47 : Nat) : Int) ∧
    ∃ r, AddToneToChar 7897 2 = some r ∧ Vowels[47 / 6 * 6 + 2]? = some r ∧
      Int.tdiv (FindVowelPosition r) 6 = Int.tdiv ((47 : Nat) : Int) 6 ∧
      FindToneFromChar r = 2 :=
  ⟨by decide, by decide, with_tone_is_table_entry 47 7897 (by decide) 2 (by decide)⟩

set_option maxRecDepth 100000 in
theorem orthogonality_table : ∀ v ∈ Vowels, ∀ t, t < 6 →
    (AddToneToChar v t).isSome = true ∧
    ((AddToneToChar v t).bind
      (fun r => AddToneToChar (RemoveMarkFromChar r) 0)).isSome = true ∧
    (AddToneToChar (RemoveMarkFromChar v) 0).isSome = true ∧
    ((AddToneToChar v t).bind
      (fun r => (AddToneToChar (RemoveMarkFromChar r) 0).map marksMaps))
      = (AddToneToChar (RemoveMarkFromChar v) 0).map marksMaps := by
  decide

/-- C7. Shape/tone orthogonality: for every code point `v` of `Vowels` and
every tone `t` of `0..5`, with `r = AddToneToChar(v, t)`, the code points
`RemoveMarkFromChar(r)` and `RemoveMarkFromChar(v)` have the same shape family:
`marksMaps` gives the same answer (the same record, or no record) for their
tone-neutral forms `b1` and `b2`. -/
theorem shape_tone_orthogonal (v : Rune) (hv : v ∈ Vowels) (t : Nat) (ht : t < 6) :
    ∃ r b1 b2, AddToneToChar v t = some r ∧
      AddToneToChar (RemoveMarkFromChar r) 0 = some b1 ∧
      AddToneToChar (RemoveMarkFromChar v) 0 = some b2 ∧
      marksMaps b1 = marksMaps b2 := by
  obtain ⟨h1, h2, h3, h4⟩ := orthogonality_table v hv t ht
  obtain ⟨r, hr⟩ := Option.isSome_iff_exists.mp h1
  rw [hr] at h2 h4
  simp only [Option.some_bind] at h2 h4
  obtain ⟨b1, hb1⟩ := Option.isSome_iff_exists.mp h2
  obtain ⟨b2, hb2⟩ := Option.isSome_iff_exists.mp h3
  rw [hb1, hb2] at h4
  exact ⟨r, b1, b2, hr, hb1, hb2, by simpa using h4⟩

theorem shape_tone_orthogonal_witness :
    (226 : Rune) ∈ Vowels ∧ 4 < 6 ∧ ∃ r b1 b2, AddToneToChar 226 4 = some r ∧
      AddToneToChar (RemoveMarkFromChar r) 0 = some b1 ∧
      AddToneToChar (RemoveMarkFromChar 226) 0 = some b2 ∧
      marksMaps b1 = marksMaps b2 :=
  ⟨by decide, by decide, shape_tone_orthogonal 226 (by decide) 4 (by decide)⟩

/-! ## Run-time failures -/

theorem AddToneToChar_in_range_table : ∀ v ∈ Vowels, ∀ t, t < 6 →
    (AddToneToChar v t).isSome = true := by
  decide

theorem AddToneToChar_in_range (c : Rune) (t : Nat) (ht : t < 6) :
    (AddToneToChar c t).isSome = true := by
  by_cases hc : c ∈ Vowels
  · exact AddToneToChar_in_range_table c hc t ht
  · simp [AddToneToChar_of_not_mem c t hc]

theorem AddMarkToChar_in_range (c : Rune) (m : Nat) (hm : m < 5) :
    (AddMarkToChar c m).isSome = true := by
  by_cases hc : c ∈ tableRunes
  · exact (sentinel_table c hc m hm).2.1
  · obtain ⟨hv, hk⟩ := not_mem_tableRunes c hc
    simp [AddMarkToChar_of_not_mem c m hv hk]

/-- The tone-neutral form of a code point: the result of `AddToneToChar(c, 0)`. -/
def toneless (c : Rune) : Rune := (AddToneToChar c 0).getD c

theorem AddToneToChar_zero (c : Rune) : AddToneToChar c 0 = some (toneless c) := by
  obtain ⟨b, hb⟩ := Option.isSome_iff_exists.mp (AddToneToChar_in_range c 0 (by decide))
  simp [toneless, hb]

theorem toneless_of_not_mem (c : Rune) (h : c ∉ Vowels) : toneless c = c := by
  simp [toneless, AddToneToChar_of_not_mem c 0 h]

theorem removeToneLoop_eq (w : List Rune) : removeToneLoop w = some (w.map toneless) := by
  induction w with
  | nil => rfl
  | cons c cs ih =>
    have hc : (if IsVowel c = true then AddToneToChar c 0 else some c) = some (toneless c) := by
      by_cases hv : IsVowel c = true
      · simp [hv, AddToneToChar_zero]
      · have hn : c ∉ Vowels := fun h => hv ((IsVowel_iff c).mpr h)
        simp [hv, toneless_of_not_mem c hn]
    simp only [removeToneLoop, hc, ih, List.map_cons]

theorem RemoveToneFromWord_eq (w : List Rune) :
    RemoveToneFromWord w = some (stringOfRunes (w.map toneless)) := by
  simp only [RemoveToneFromWord, removeToneLoop_eq]

theorem HasVietnameseChar_returns (toLower : Rune → Rune) (w : List Rune) :
    (HasVietnameseChar toLower w).isSome = true := by
  induction w with
  | nil => rfl
  | cons chr rest ih =>
    simp only [HasVietnameseChar, AddToneToChar_zero]
    split
    · rfl
    · split
      · rfl
      · exact ih

/-- C8, as the code has it. With a tone of `0..5` and a mark of `0..4` no
operation fails: `AddToneToChar`, `AddMarkToChar`, `RemoveToneFromWord` and
`HasVietnameseChar` return a value for every code point and every word (the
other operations contain no index and are total functions). -/
theorem no_panic_in_range (c : Rune) (t m : Nat) (ht : t < 6) (hm : m < 5)
    (w : List Rune) (toLower : Rune → Rune) :
    (AddToneToChar c t).isSome = true ∧ (AddMarkToChar c m).isSome = true ∧
      (RemoveToneFromWord w).isSome = true ∧
      (HasVietnameseChar toLower w).isSome = true := by
  refine ⟨AddToneToChar_in_range c t ht, AddMarkToChar_in_range c m hm, ?_,
    HasVietnameseChar_returns toLower w⟩
  simp [RemoveToneFromWord_eq]

theorem no_panic_in_range_witness :
    5 < 6 ∧ 4 < 5 ∧ (AddToneToChar 7925 5).isSome = true ∧ (AddMarkToChar 7925 4).isSome = true ∧
      (RemoveToneFromWord [273, 227]).isSome = true ∧
      (HasVietnameseChar (fun r => r) [273, 227]).isSome = true :=
  ⟨by decide, by decide,
    no_panic_in_range 7925 5 4 (by decide) (by decide) [273, 227] (fun r => r)⟩

/-- C8 fails as stated: the tone 6 and the mark 5 are values of `uint8`, and
`AddToneToChar('y', 6)` indexes `Vowels[72]`, `AddMarkToChar('a', 5)` indexes
`marks[5]`: both are out of range. -/
theorem no_panic_counterexample :
    (6 < 256 ∧ AddToneToChar 121 6 = none) ∧ (5 < 256 ∧ AddMarkToChar 97 5 = none) := by
  decide

/-! ## Words -/

theorem length_stringOfRunes (l : List Rune) : (stringOfRunes l).length = l.length := by
  simp [stringOfRunes]

/-- C9. Word-length invariance: `RemoveToneFromWord(w)` returns, and its
result has as many code points as `w`. -/
theorem word_length_invariant (w : List Rune) :
    ∃ out, RemoveToneFromWord w = some out ∧ out.length = w.length :=
  ⟨stringOfRunes (w.map toneless), RemoveToneFromWord_eq w, by
    rw [length_stringOfRunes, List.length_map]⟩

theorem toneless_table : ∀ v ∈ Vowels,
    FindToneFromChar (toneless v) = 0 ∧ validRune (toneless v) = true ∧
      toneless (toneless v) = toneless v := by
  decide

theorem FindToneFromChar_toneless (c : Rune) : FindToneFromChar (toneless c) = 0 := by
  by_cases hc : c ∈ Vowels
  · exact (toneless_table c hc).1
  · rw [toneless_of_not_mem c hc]
    exact FindToneFromChar_of_not_mem c hc

theorem toneless_toneless (c : Rune) : toneless (toneless c) = toneless c := by
  by_cases hc : c ∈ Vowels
  · exact (toneless_table c hc).2.2
  · rw [toneless_of_not_mem c hc, toneless_of_not_mem c hc]

theorem validRune_toneless (c : Rune) (h : validRune c = true) :
    validRune (toneless c) = true := by
  by_cases hc : c ∈ Vowels
  · exact (toneless_table c hc).2.1
  · rw [toneless_of_not_mem c hc]
    exact h

theorem stringOfRunes_of_valid (l : List Rune) (h : ∀ c ∈ l, validRune c = true) :
    stringOfRunes l = l := by
  induction l with
  | nil => rfl
  | cons c cs ih =>
    have hc : validRune c = true := h c (by simp)
    have hcs : ∀ x ∈ cs, validRune x = true := fun x hx => h x (by simp [hx])
    have ih2 := ih hcs
    unfold stringOfRunes at ih2 ⊢
    simp only [List.map_cons, hc, if_true, ih2]

theorem valid_map_toneless (w : List Rune) (hw : ∀ c ∈ w, validRune c = true) :
    ∀ c ∈ w.map toneless, validRune c = true := by
  intro c hc
  obtain ⟨a, ha, rfl⟩ := List.mem_map.mp hc
  exact validRune_toneless a (hw a ha)

/-- C10. `RemoveToneFromWord` is the code-point-wise tone strip: for a word
`w` (the code points of a Go string, all of them scalar values) it returns
`out` where, at every position `i`, `out[i]` is `AddToneToChar(w[i], 0)` when
`w[i]` is in the table `Vowels` and `w[i]` itself otherwise; every code point
of `out` has tone `TONE_NONE`, and `RemoveToneFromWord(out)` is `out`. -/
theorem remove_tone_pointwise (w : List Rune) (hw : ∀ c ∈ w, validRune c = true) :
    ∃ out, RemoveToneFromWord w = some out ∧
      (∀ (i : Nat) (c : Rune), w[i]? = some c →
        (c ∈ Vowels → out[i]? = AddToneToChar c 0) ∧ (c ∉ Vowels → out[i]? = some c)) ∧
      (∀ x ∈ out, FindToneFromChar x = TONE_NONE) ∧
      RemoveToneFromWord out = some out := by
  have hvalid := valid_map_toneless w hw
  refine ⟨w.map toneless, ?_, ?_, ?_, ?_⟩
  · rw [RemoveToneFromWord_eq, stringOfRunes_of_valid _ hvalid]
  · intro i c hi
    have hout : (w.map toneless)[i]? = some (toneless c) := by
      rw [List.getElem?_map, hi]
      rfl
    refine ⟨fun _ => ?_, fun hc => ?_⟩
    · rw [hout, AddToneToChar_zero]
    · rw [hout, toneless_of_not_mem c hc]
  · intro x hx
    obtain ⟨a, _, rfl⟩ := List.mem_map.mp hx
    exact FindToneFromChar_toneless a
  · have hidem : (w.map toneless).map toneless = w.map toneless := by
      rw [List.map_map]
      apply List.map_congr_left
      intro a _
      exact toneless_toneless a
    rw [RemoveToneFromWord_eq, hidem, stringOfRunes_of_valid _ hvalid]

theorem remove_tone_pointwise_witness :
    (∀ c ∈ ([273, 227, 7879] : List Rune), validRune c = true) ∧
    ∃ out, RemoveToneFromWord [273, 227, 7879] = some out ∧
      (∀ (i : Nat) (c : Rune), ([273, 227, 7879] : List Rune)[i]? = some c →
        (c ∈ Vowels → out[i]? = AddToneToChar c 0) ∧ (c ∉ Vowels → out[i]? = some c)) ∧
      (∀ x ∈ out, FindToneFromChar x = TONE_NONE) ∧
      RemoveToneFromWord out = some out :=
  ⟨by decide, remove_tone_pointwise [273, 227, 7879] (by decide)⟩

/-! ## Vietnamese detection -/

theorem HasVietnameseChar_cons (toLower : Rune → Rune) (chr : Rune) (rest : List Rune) :
    HasVietnameseChar toLower (chr :: rest) =
      if FindToneFromChar (toLower chr) ≠ TONE_NONE then some true
      else if toneless (toLower chr) ∈ vnIdenticalCharset then some true
      else HasVietnameseChar toLower rest := by
  simp only [HasVietnameseChar, AddToneToChar_zero]

/-- C11. Characterisation of `HasVietnameseChar`: for every word `w` the call
returns, and it returns `true` if and only if some code point `chr` of `w` has
a lower-cased form `c = toLower chr` with `FindToneFromChar(c) != TONE_NONE` or
with its tone-stripped form `AddToneToChar(c, 0)` in the set
`â, ă, ê, ô, ơ, ư, đ`. -/
theorem has_vietnamese_char_iff (toLower : Rune → Rune) (w : List Rune) :
    ∃ b, HasVietnameseChar toLower w = some b ∧
      (b = true ↔ ∃ chr ∈ w, FindToneFromChar (toLower chr) ≠ TONE_NONE ∨
        ∃ x, AddToneToChar (toLower chr) 0 = some x ∧
          x ∈ ([226, 259, 234, 244, 417, 432, 273] : List Rune)) := by
  induction w with
  | nil => exact ⟨false, rfl, by simp⟩
  | cons chr rest ih =>
    obtain ⟨b, hb, hiff⟩ := ih
    rw [HasVietnameseChar_cons]
    by_cases h1 : FindToneFromChar (toLower chr) ≠ TONE_NONE
    · refine ⟨true, by rw [if_pos h1], ?_⟩
      simp only [true_iff]
      exact ⟨chr, List.mem_cons_self _ _, Or.inl h1⟩
    · by_cases h2 : toneless (toLower chr) ∈ vnIdenticalCharset
      · refine ⟨true, by rw [if_neg h1, if_pos h2], ?_⟩
        simp only [true_iff]
        exact ⟨chr, List.mem_cons_self _ _,
          Or.inr ⟨toneless (toLower chr), AddToneToChar_zero _, h2⟩⟩
      · refine ⟨b, by rw [if_neg h1, if_neg h2, hb], ?_⟩
        rw [hiff]
        constructor
        · rintro ⟨c, hc, hP⟩
          exact ⟨c, List.mem_cons_of_mem _ hc, hP⟩
        · rintro ⟨c, hc, hP⟩
          rcases List.mem_cons.mp hc with rfl | hc
          · rcases hP with hP | ⟨x, hx, hxs⟩
            · exact absurd hP h1
            · rw [AddToneToChar_zero] at hx
              have hxe : toneless (toLower c) = x := by simpa using hx
              rw [← hxe] at hxs
              exact absurd hxs h2
          · exact ⟨c, hc, hP⟩

theorem has_vietnamese_char_iff_witness :
    ∃ b, HasVietnameseChar (fun r => r) [118, 105, 7879, 116] = some b ∧
      (b = true ↔ ∃ chr ∈ ([118, 105, 7879, 116] : List Rune),
        FindToneFromChar ((fun r => r) chr) ≠ TONE_NONE ∨
        ∃ x, AddToneToChar ((fun r => r) chr) 0 = some x ∧
          x ∈ ([226, 259, 234, 244, 417, 432, 273] : List Rune)) :=
  has_vietnamese_char_iff (fun r => r) [118, 105, 7879, 116]

/-! ## Code points outside the vowel table -/

/-- C12. Sentinel returns for non-vowels: for every code point `c` that is not
in `Vowels` and every tone `t`, `FindToneFromChar(c) == TONE_NONE`,
`AddToneToChar(c, t)` returns `c`, and `IsVowel(c) == false`. -/
theorem non_vowel_sentinels (c : Rune) (hc : c ∉ Vowels) (t : Nat) :
    FindToneFromChar c = TONE_NONE ∧ AddToneToChar c t = some c ∧ IsVowel c = false := by
  refine ⟨FindToneFromChar_of_not_mem c hc, AddToneToChar_of_not_mem c t hc, ?_⟩
  cases h : IsVowel c with
  | false => rfl
  | true => exact absurd ((IsVowel_iff c).mp h) hc

theorem non_vowel_sentinels_witness :
    (273 : Rune) ∉ Vowels ∧
    FindToneFromChar 273 = TONE_NONE ∧ AddToneToChar 273 200 = some 273 ∧
      IsVowel 273 = false :=
  ⟨by decide, non_vowel_sentinels 273 (by decide) 200⟩

/-! ## The vowel table -/

theorem position_of_entry (p : Nat) (v : Rune) (hp : Vowels[p]? = some v) :
    p < 72 ∧ FindVowelPosition v = (p : Int) ∧ FindToneFromChar v = p % 6 := by
  have hlt : p < 72 := by
    obtain ⟨h, _⟩ := List.getElem?_eq_some.mp hp
    simpa [Vowels] using h
  have hmod : p % 6 < 6 := Nat.mod_lt _ (by decide)
  obtain ⟨h1, _, _, _, h5⟩ := with_tone_table p hlt (p % 6) hmod
  have hpos : p / 6 * 6 + p % 6 = p := by omega
  rw [hpos] at h5
  simp only [nth_eq] at h1 h5
  rw [hp] at h1 h5
  exact ⟨hlt, by simpa using h1, by simpa using h5⟩

/-- C13. Vowel table invariant: `Vowels` holds exactly 72 code points, that is
12 runs of 6; no code point occurs at two positions; every vowel has exactly
one position, the one `FindVowelPosition` finds, and its tone
`FindToneFromChar` is that position modulo 6, so that position `6 * r + t` of
each run `r` holds a vowel of tone `t`; the first run is a, à, á, ả, ã, ạ. -/
theorem vowel_table_invariant :
    Vowels.length = 72 ∧ Vowels.length = 12 * 6 ∧ Vowels.Nodup ∧
    (∀ v ∈ Vowels, ∃! p : Nat, Vowels[p]? = some v) ∧
    (∀ (p : Nat) (v : Rune), Vowels[p]? = some v →
      FindVowelPosition v = (p : Int) ∧ FindToneFromChar v = p % 6) ∧
    (∀ r : Nat, r < 12 → ∀ t : Nat, t < 6 →
      ∃ v, Vowels[6 * r + t]? = some v ∧ FindToneFromChar v = t) ∧
    Vowels.take 6 = [97, 224, 225, 7843, 227, 7841] := by
  refine ⟨rfl, rfl, by decide, ?_, ?_, ?_, rfl⟩
  · intro v hv
    obtain ⟨p, hp⟩ := List.getElem?_of_mem hv
    refine ⟨p, hp, ?_⟩
    intro q hq
    have h1 := (position_of_entry p v hp).2.1
    have h2 := (position_of_entry q v hq).2.1
    rw [h1] at h2
    exact (Int.ofNat_inj.mp h2).symm
  · intro p v hp
    exact (position_of_entry p v hp).2
  · intro r hr t ht
    have hlt : 6 * r + t < Vowels.length := by
      have : Vowels.length = 72 := rfl
      omega
    refine ⟨Vowels[6 * r + t], List.getElem?_eq_getElem hlt, ?_⟩
    have h := (position_of_entry (6 * r + t) _ (List.getElem?_eq_getElem hlt)).2.2
    rw [h]
    show (6 * r + t) % 6 = t
    omega

/-! ## The mark family table -/

theorem mapLookup_some_mem (chr : Rune) (l : List (Rune × List Rune)) (s : List Rune)
    (h : mapLookup chr l = some s) : (chr, s) ∈ l := by
  induction l with
  | nil => simp [mapLookup] at h
  | cons e rest ih =>
    obtain ⟨k, v⟩ := e
    by_cases hk : k = chr
    · simp only [mapLookup, hk, if_true, Option.some.injEq] at h
      simp [hk, h]
    · simp only [mapLookup, hk, if_false] at h
      exact List.mem_cons_of_mem _ (ih h)

set_option maxRecDepth 100000 in
theorem mark_table_entries : ∀ e ∈ marksMapsEntries,
    e.2.length = 5 ∧ (nth e.2 0).isSome = true ∧ nth e.2 0 ≠ some underscore ∧
    ∀ x ∈ e.2, x ≠ underscore → marksMaps x = some e.2 ∧
      ∀ i : Nat, i < 5 → ∀ j : Nat, j < 5 → nth e.2 i = some x → nth e.2 j = some x → i = j := by
  decide

/-- C14. The mark family table is well formed: the record `marks` of every key
`k` of `marksMaps` has exactly 5 slots; its slot 0 is present (not `'_'`); and
every present letter `x` of the record is itself a key of `marksMaps`, with the
identical record, and occurs at exactly one slot of it. -/
theorem mark_table_well_formed (k : Rune) (marks : List Rune)
    (hk : marksMaps k = some marks) :
    marks.length = 5 ∧ (∃ x, marks[0]? = some x ∧ x ≠ underscore) ∧
    ∀ x ∈ marks, x ≠ underscore →
      marksMaps x = some marks ∧ ∃! i : Nat, marks[i]? = some x := by
  obtain ⟨hlen, h0, hne, hall⟩ :=
    mark_table_entries (k, marks) (mapLookup_some_mem k marksMapsEntries marks hk)
  simp only [nth_eq] at h0 hne hall
  have hlen : marks.length = 5 := hlen
  refine ⟨hlen, ?_, ?_⟩
  · obtain ⟨x, hx⟩ := Option.isSome_iff_exists.mp h0
    refine ⟨x, hx, ?_⟩
    intro hu
    exact hne (by rw [hx, hu])
  · intro x hx hxu
    obtain ⟨hrec, huniq⟩ := hall x hx hxu
    refine ⟨hrec, ?_⟩
    obtain ⟨i, hi⟩ := List.getElem?_of_mem hx
    refine ⟨i, hi, ?_⟩
    intro j hj
    have hi5 : i < 5 := by
      obtain ⟨h, _⟩ := List.getElem?_eq_some.mp hi
      omega
    have hj5 : j < 5 := by
      obtain ⟨h, _⟩ := List.getElem?_eq_some.mp hj
      omega
    exact huniq j hj5 i hi5 hj hi

theorem mark_table_well_formed_witness :
    marksMaps 417 = some [111, 244, 95, 417, 95] ∧
    ([111, 244, 95, 417, 95] : List Rune).length = 5 ∧
    (∃ x, ([111, 244, 95, 417, 95] : List Rune)[0]? = some x ∧ x ≠ underscore) ∧
    ∀ x ∈ ([111, 244, 95, 417, 95] : List Rune), x ≠ underscore →
      marksMaps x = some [111, 244, 95, 417, 95] ∧
        ∃! i : Nat, ([111, 244, 95, 417, 95] : List Rune)[i]? = some x :=
  ⟨by decide, mark_table_well_formed 417 [111, 244, 95, 417, 95] (by decide)⟩

/-! ## Marks with a defined result -/

set_option maxRecDepth 100000 in
theorem mark_results_table : ∀ b ∈ markKeys,
    (∀ m1 : Nat, m1 < 5 → ∀ m2 : Nat, m2 < 5 →
      AddMarkToChar b m1 = AddMarkToChar b m2 → AddMarkToChar b m1 ≠ some 0 → m1 = m2) ∧
    2 ≤ (getMarkFamily b).length ∧ (getMarkFamily b).length ≤ 3 ∧
    ((List.range 5).filter (fun m => decide (AddMarkToChar b m ≠ some 0))).length
      = (getMarkFamily b).length := by
  decide

/-- C15 fails as stated: the record of `'a'` is `"aâă__"`, three of its slots
are present, and `AddMarkToChar('a', m)` is non-zero both for the mark 0
(`'a'`) and for the mark 1 (`'â'`). -/
theorem one_mark_counterexample :
    marksMaps 97 = some [97, 226, 259, 95, 95] ∧
    getMarkFamily 97 = [97, 226, 259] ∧
    AddMarkToChar 97 0 = some 97 ∧ AddMarkToChar 97 1 = some 226 ∧
    (0 : Nat) ≠ 1 ∧ (97 : Rune) ≠ 0 ∧ (226 : Rune) ≠ 0 := by
  decide

/-- C15, as the code has it. For every key `base` of `marksMaps` two marks of
`0..4` with the same non-zero result of `AddMarkToChar(base, _)` are the same
mark, so every defined result comes from exactly one mark; the present slots
of the record, which `getMarkFamily` lists, are two or three, and as many
marks of `0..4` have a non-zero result. -/
theorem mark_results_distinct (base : Rune) (marks : List Rune)
    (hb : marksMaps base = some marks) :
    (∀ m1 m2 : Nat, m1 < 5 → m2 < 5 →
      AddMarkToChar base m1 = AddMarkToChar base m2 → AddMarkToChar base m1 ≠ some 0 →
      m1 = m2) ∧
    getMarkFamily base = marks.filter (fun c => decide (c ≠ underscore)) ∧
    2 ≤ (getMarkFamily base).length ∧ (getMarkFamily base).length ≤ 3 ∧
    ((List.range 5).filter (fun m => decide (AddMarkToChar base m ≠ some 0))).length
      = (getMarkFamily base).length := by
  obtain ⟨h1, h2, h3, h4⟩ := mark_results_table base (marksMaps_some_mem base marks hb).1
  refine ⟨fun m1 m2 hm1 hm2 => h1 m1 hm1 m2 hm2, ?_, h2, h3, h4⟩
  simp only [getMarkFamily, hb]

theorem mark_results_distinct_witness :
    marksMaps 111 = some [111, 244, 95, 417, 95] ∧
    (∀ m1 m2 : Nat, m1 < 5 → m2 < 5 →
      AddMarkToChar 111 m1 = AddMarkToChar 111 m2 → AddMarkToChar 111 m1 ≠ some 0 →
      m1 = m2) ∧
    getMarkFamily 111 =
      ([111, 244, 95, 417, 95] : List Rune).filter (fun c => decide (c ≠ underscore)) ∧
    2 ≤ (getMarkFamily 111).length ∧ (getMarkFamily 111).length ≤ 3 ∧
    ((List.range 5).filter (fun m => decide (AddMarkToChar 111 m ≠ some 0))).length
      = (getMarkFamily 111).length :=
  ⟨by decide, mark_results_distinct 111 [111, 244, 95, 417, 95] (by decide)⟩

/-! ## Removing a mark -/

theorem strip_mark_table : ∀ b ∈ markKeys,
    (marksMaps b).bind (fun marks => nth marks 0) = some (RemoveMarkFromChar b) ∧
    FindMarkPosition (RemoveMarkFromChar b) = 0 ∧
    AddMarkToChar b 0 = some (RemoveMarkFromChar b) := by
  decide

/-- C16. Contract of `RemoveMarkFromChar`: for every code point `c` with a
record `marks` in `marksMaps`, `RemoveMarkFromChar(c)` is slot 0 of the record,
`FindMarkPosition` of it is 0, and it equals `AddMarkToChar(c, 0)` (the mark
`Plain`); for every code point without a record `RemoveMarkFromChar(c) == c`. -/
theorem strip_mark_contract (c : Rune) :
    (∀ marks, marksMaps c = some marks →
      marks[0]? = some (RemoveMarkFromChar c) ∧
      FindMarkPosition (RemoveMarkFromChar c) = 0 ∧
      AddMarkToChar c 0 = some (RemoveMarkFromChar c)) ∧
    (marksMaps c = none → RemoveMarkFromChar c = c) := by
  constructor
  · intro marks hc
    obtain ⟨h1, h2, h3⟩ := strip_mark_table c (marksMaps_some_mem c marks hc).1
    rw [hc] at h1
    simp only [Option.some_bind, nth_eq] at h1
    exact ⟨h1, h2, h3⟩
  · intro hc
    simp only [RemoveMarkFromChar, hc]

theorem strip_mark_contract_witness :
    ((∀ marks, marksMaps 432 = some marks →
      marks[0]? = some (RemoveMarkFromChar 432) ∧
      FindMarkPosition (RemoveMarkFromChar 432) = 0 ∧
      AddMarkToChar 432 0 = some (RemoveMarkFromChar 432)) ∧
    (marksMaps 432 = none → RemoveMarkFromChar 432 = 432)) ∧
    marksMaps 432 = some [117, 95, 95, 432, 95] ∧ RemoveMarkFromChar 432 = 117 :=
  ⟨strip_mark_contract 432, by decide, by decide⟩

/-! ## Examples -/

/-- C17. The concrete examples, with the tones `None .. DotBelow` numbered
`0..5` and the marks `Plain .. Stroke` numbered `0..4`:
`AddToneToChar('a', 2) == 'á'`; `AddMarkToChar('a', 1) == 'â'`;
`AddMarkToChar('â', 0) == RemoveMarkFromChar('â') == 'a'`;
`FindToneFromChar('ạ') == 5`; `RemoveToneFromWord("đã") == "đa"`. -/
theorem concrete_transform_examples :
    AddToneToChar 97 2 = some 225 ∧
    AddMarkToChar 97 1 = some 226 ∧
    AddMarkToChar 226 0 = some (RemoveMarkFromChar 226) ∧ RemoveMarkFromChar 226 = 97 ∧
    FindToneFromChar 7841 = 5 ∧
    RemoveToneFromWord [273, 227] = some [273, 97] := by
  decide

/-! ## Examples of Vietnamese detection -/

theorem ascii_vowel_table : ∀ v ∈ Vowels, v < 128 →
    FindToneFromChar v = TONE_NONE ∧ toneless v ∉ vnIdenticalCharset := by
  decide

theorem ascii_not_vietnamese (c : Rune) (h0 : 0 ≤ c) (h1 : c < 128) :
    FindToneFromChar c = TONE_NONE ∧ toneless c ∉ vnIdenticalCharset := by
  by_cases hc : c ∈ Vowels
  · exact ascii_vowel_table c hc h1
  · refine ⟨FindToneFromChar_of_not_mem c hc, ?_⟩
    rw [toneless_of_not_mem c hc]
    simp only [vnIdenticalCharset, List.mem_cons, List.mem_singleton, List.not_mem_nil,
      or_false, not_or]
    unfold Rune at *
    omega

theorem HasVietnameseChar_of_mem (toLower : Rune → Rune) (w : List Rune) (chr : Rune)
    (hm : chr ∈ w)
    (h : FindToneFromChar (toLower chr) ≠ TONE_NONE ∨
      toneless (toLower chr) ∈ vnIdenticalCharset) :
    HasVietnameseChar toLower w = some true := by
  induction w with
  | nil => simp at hm
  | cons x rest ih =>
    rw [HasVietnameseChar_cons]
    by_cases h1 : FindToneFromChar (toLower x) ≠ TONE_NONE
    · rw [if_pos h1]
    · rw [if_neg h1]
      by_cases h2 : toneless (toLower x) ∈ vnIdenticalCharset
      · rw [if_pos h2]
      · rw [if_neg h2]
        rcases List.mem_cons.mp hm with hx | hx
        · subst hx
          rcases h with h | h
          · exact absurd h h1
          · exact absurd h h2
        · exact ih hx

theorem HasVietnameseChar_ascii (toLower : Rune → Rune)
    (hascii : ∀ r, 0 ≤ r → r < 128 → 0 ≤ toLower r ∧ toLower r < 128)
    (w : List Rune) (hw : ∀ r ∈ w, 0 ≤ r ∧ r < 128) :
    HasVietnameseChar toLower w = some false := by
  induction w with
  | nil => rfl
  | cons chr rest ih =>
    obtain ⟨h0, h1⟩ := hw chr (List.mem_cons_self _ _)
    obtain ⟨l0, l1⟩ := hascii chr h0 h1
    obtain ⟨ht, hs⟩ := ascii_not_vietnamese (toLower chr) l0 l1
    rw [HasVietnameseChar_cons, if_neg (not_not.mpr ht), if_neg hs]
    exact ih (fun r hr => hw r (List.mem_cons_of_mem _ hr))

/-- C18. Examples of `HasVietnameseChar`, for a lower-casing `toLower` that
leaves the lower-case letters `'ệ'` and `'đ'` unchanged and maps ASCII code
points to ASCII code points (as `unicode.ToLower` does):
`HasVietnameseChar("viet") == false`, `HasVietnameseChar("việt") == true`,
`HasVietnameseChar("đen") == true`, `HasVietnameseChar("den") == false`; and
`HasVietnameseChar(w) == false` for every word `w` of ASCII code points. -/
theorem vietnamese_detection_examples (toLower : Rune → Rune)
    (he : toLower 7879 = 7879) (hd : toLower 273 = 273)
    (hascii : ∀ r, 0 ≤ r → r < 128 → 0 ≤ toLower r ∧ toLower r < 128) :
    HasVietnameseChar toLower [118, 105, 101, 116] = some false ∧
    HasVietnameseChar toLower [118, 105, 7879, 116] = some true ∧
    HasVietnameseChar toLower [273, 101, 110] = some true ∧
    HasVietnameseChar toLower [100, 101, 110] = some false ∧
    ∀ w : List Rune, (∀ r ∈ w, 0 ≤ r ∧ r < 128) →
      HasVietnameseChar toLower w = some false := by
  refine ⟨?_, ?_, ?_, ?_, HasVietnameseChar_ascii toLower hascii⟩
  · exact HasVietnameseChar_ascii toLower hascii _ (by decide)
  · refine HasVietnameseChar_of_mem toLower _ 7879 (by decide) (Or.inl ?_)
    rw [he]
    decide
  · refine HasVietnameseChar_of_mem toLower _ 273 (by decide) (Or.inr ?_)
    rw [hd]
    decide
  · exact HasVietnameseChar_ascii toLower hascii _ (by decide)

theorem vietnamese_detection_examples_witness :
    HasVietnameseChar (fun r => if 65 ≤ r ∧ r ≤ 90 then r + 32 else r)
      [118, 105, 101, 116] = some false ∧
    HasVietnameseChar (fun r => if 65 ≤ r ∧ r ≤ 90 then r + 32 else r)
      [118, 105, 7879, 116] = some true ∧
    HasVietnameseChar (fun r => if 65 ≤ r ∧ r ≤ 90 then r + 32 else r)
      [273, 101, 110] = some true ∧
    HasVietnameseChar (fun r => if 65 ≤ r ∧ r ≤ 90 then r + 32 else r)
      [100, 101, 110] = some false ∧
    ∀ w : List Rune, (∀ r ∈ w, 0 ≤ r ∧ r < 128) →
      HasVietnameseChar (fun r => if 65 ≤ r ∧ r ≤ 90 then r + 32 else r) w = some false :=
  vietnamese_detection_examples (fun r => if 65 ≤ r ∧ r ≤ 90 then r + 32 else r)
    (by decide) (by decide)
    (by
      intro r h0 h1
      dsimp only
      unfold Rune at *
      split <;> constructor <;> omega)

/-! ## Word breaks -/

theorem word_break_table :
    (∀ c ∈ ([44, 59, 58, 46, 34, 39, 33, 63, 32, 60, 62, 61, 43, 45, 42, 47, 95, 126, 96,
      64, 35, 37, 94, 38, 40, 41, 123, 125, 91, 93, 124] : List Rune),
      IsWordBreakSymbol c = true) ∧
    (∀ c ∈ Vowels, IsWordBreakSymbol c = false) ∧
    (∀ c ∈ markKeys, IsWordBreakSymbol c = false) := by
  decide

theorem IsWordBreakSymbol_of_alpha (c : Rune) (h : IsAlpha c = true) :
    IsWordBreakSymbol c = false := by
  simp only [IsAlpha, Bool.or_eq_true, Bool.and_eq_true, decide_eq_true_eq] at h
  simp only [IsWordBreakSymbol, WordBreakSymbols, List.any_cons, List.any_nil,
    Bool.or_false, Bool.or_eq_true, decide_eq_true_eq, ite_eq_right_iff, Bool.not_eq_true]
  unfold Rune at *
  have hd : ¬ (c ≥ 48 ∧ c ≤ 57) := by omega
  rw [if_neg hd]
  simp only [Bool.or_eq_false_iff, decide_eq_false_iff_not]
  omega

/-- C19. Word-break classification: `IsWordBreakSymbol(c)` is true for every
ASCII digit `'0'..'9'` and for each of the listed punctuation marks and
symbols; it is false for every ASCII letter (`IsAlpha`), for every code point of
`Vowels` and for every key of `marksMaps`; so `'5'` and `' '` are word breaks
and `'a'` is not. -/
theorem word_break_classification :
    (∀ c : Rune, 48 ≤ c → c ≤ 57 → IsWordBreakSymbol c = true) ∧
    (∀ c ∈ ([44, 59, 58, 46, 34, 39, 33, 63, 32, 60, 62, 61, 43, 45, 42, 47, 95, 126, 96,
      64, 35, 37, 94, 38, 40, 41, 123, 125, 91, 93, 124] : List Rune),
      IsWordBreakSymbol c = true) ∧
    (∀ c : Rune, IsAlpha c = true → IsWordBreakSymbol c = false) ∧
    (∀ c : Rune, (65 ≤ c ∧ c ≤ 90) ∨ (97 ≤ c ∧ c ≤ 122) → IsWordBreakSymbol c = false) ∧
    (∀ c ∈ Vowels, IsWordBreakSymbol c = false) ∧
    (∀ c : Rune, (marksMaps c).isSome = true → IsWordBreakSymbol c = false) ∧
    IsWordBreakSymbol 53 = true ∧ IsWordBreakSymbol 32 = true ∧
    IsWordBreakSymbol 97 = false := by
  obtain ⟨h1, h2, h3⟩ := word_break_table
  refine ⟨?_, h1, IsWordBreakSymbol_of_alpha, ?_, h2, ?_, by decide, by decide, by decide⟩
  · intro c h0 h9
    have hd : c ≥ 48 ∧ c ≤ 57 := ⟨h0, h9⟩
    simp only [IsWordBreakSymbol, if_pos hd]
  · intro c hc
    apply IsWordBreakSymbol_of_alpha
    simp only [IsAlpha, Bool.or_eq_true, Bool.and_eq_true, decide_eq_true_eq]
    rcases hc with ⟨ha, hb⟩ | ⟨ha, hb⟩
    · exact Or.inr ⟨ha, hb⟩
    · exact Or.inl ⟨ha, hb⟩
  · intro c hc
    apply h3
    by_contra hn
    rw [marksMaps_of_not_mem c hn] at hc
    exact Bool.noConfusion hc

/-! ## Indices of in-range arguments -/

theorem tone_index_in_range (c : Rune) (hc : c ∈ Vowels) (t : Nat) (ht : t < 6) :
    0 ≤ FindVowelPosition c + ((t : Int) - Int.tmod (FindVowelPosition c) 6) ∧
    FindVowelPosition c + ((t : Int) - Int.tmod (FindVowelPosition c) 6)
      < (Vowels.length : Int) := by
  obtain ⟨p, hp⟩ := List.getElem?_of_mem hc
  obtain ⟨hlt, hpos, _⟩ := position_of_entry p c hp
  have hlen : Vowels.length = 72 := rfl
  have hmod : Int.tmod (p : Int) 6 = ((p % 6 : Nat) : Int) := by
    simp [Int.tmod]
  rw [hpos, hlen, hmod]
  omega

/-- C20. In-range arguments never index out of bounds: for every code point
`c`, every tone `t < 6` and every mark `m < 5`, the index
`pos + (t - pos % 6)` of `AddToneToChar` lies in `[0, len(Vowels))` when `c` is
a vowel (`pos` is `FindVowelPosition(c)`), the index `m` of `AddMarkToChar` lies
in `[0, len(marks))` with `len(marks) == 5` when the tone-neutral form
`AddToneToChar(c, 0)` has the record `marks`, and both functions return a
value. -/
theorem in_range_never_out_of_bounds (c : Rune) (t m : Nat) (ht : t < 6) (hm : m < 5) :
    (IsVowel c = true →
      0 ≤ FindVowelPosition c + ((t : Int) - Int.tmod (FindVowelPosition c) 6) ∧
      FindVowelPosition c + ((t : Int) - Int.tmod (FindVowelPosition c) 6)
        < (Vowels.length : Int)) ∧
    (∀ base marks, AddToneToChar c 0 = some base → marksMaps base = some marks →
      marks.length = 5 ∧ 0 ≤ (m : Int) ∧ (m : Int) < (marks.length : Int) ∧
      (index marks m).isSome = true) ∧
    (∃ r, AddToneToChar c t = some r) ∧ (∃ r, AddMarkToChar c m = some r) := by
  refine ⟨?_, ?_, Option.isSome_iff_exists.mp (AddToneToChar_in_range c t ht),
    Option.isSome_iff_exists.mp (AddMarkToChar_in_range c m hm)⟩
  · intro hv
    exact tone_index_in_range c ((IsVowel_iff c).mp hv) t ht
  · intro base marks _ hb
    have hlen := (marksMaps_some_mem base marks hb).2
    have hlt : m < marks.length := by omega
    refine ⟨hlen, Int.ofNat_nonneg m, by omega, ?_⟩
    have hneg : ¬ ((m : Int) < 0) := by omega
    simp only [index, if_neg hneg, Int.toNat_ofNat, nth_eq, List.getElem?_eq_getElem hlt,
      Option.isSome_some]

theorem in_range_never_out_of_bounds_witness :
    5 < 6 ∧ 4 < 5 ∧ IsVowel 7885 = true ∧
    AddToneToChar 7885 0 = some 111 ∧ marksMaps 111 = some [111, 244, 95, 417, 95] ∧
    ((IsVowel 7885 = true →
      0 ≤ FindVowelPosition 7885 + (((5 : Nat) : Int) - Int.tmod (FindVowelPosition 7885) 6) ∧
      FindVowelPosition 7885 + (((5 : Nat) : Int) - Int.tmod (FindVowelPosition 7885) 6)
        < (Vowels.length : Int)) ∧
    (∀ base marks, AddToneToChar 7885 0 = some base → marksMaps base = some marks →
      marks.length = 5 ∧ 0 ≤ ((4 : Nat) : Int) ∧ ((4 : Nat) : Int) < (marks.length : Int) ∧
      (index marks (4 : Nat)).isSome = true) ∧
    (∃ r, AddToneToChar 7885 5 = some r) ∧ (∃ r, AddMarkToChar 7885 4 = some r)) :=
  ⟨by decide, by decide, by decide, by decide, by decide,
    in_range_never_out_of_bounds 7885 5 4 (by decide) (by decide)⟩

end Bamboo
